import Mathlib

/-!
Shallow embedding of the detection utilities of pytorch-hrvvi-ext
(`src/hutil/detection/__init__.py` and `src/horch/detection/two/e2e.py`).

Machine floats are idealised as exact rationals (for data and comparisons)
or exact reals (where `log`/`exp` appear, as in the box coders and the
losses).  Tensors become lists, boolean masks become `List Bool`, and the
`torch.max(dim)` argmax is embedded as the index of the first maximum, as
documented for `torch.max`.
-/

namespace Spec2Proof

/-! ### Generic list helpers (embedding of tensor reductions) -/

/-- Maximum of a list, `d` on the empty list (tensor `max` over a
non-empty dimension; the default is never reached at call sites). -/
def listMax {α : Type*} [LinearOrder α] (d : α) : List α → α
  | [] => d
  | [x] => x
  | x :: y :: ys => max x (listMax d (y :: ys))

/-- Index of the first maximum of a list (the argmax returned by
`torch.max(dim)` / Python `max`), `0` on the empty list. -/
def argmaxFirst {α : Type*} [LinearOrder α] (d : α) : List α → ℕ
  | [] => 0
  | [_] => 0
  | x :: y :: ys => if x < listMax d (y :: ys) then argmaxFirst d (y :: ys) + 1 else 0

theorem argmaxFirst_lt_length {α : Type*} [LinearOrder α] (d : α) :
    ∀ (l : List α), l ≠ [] → argmaxFirst d l < l.length
  | [], h => absurd rfl h
  | [_], _ => Nat.zero_lt_one
  | x :: y :: ys, _ => by
    unfold argmaxFirst
    by_cases hx : x < listMax d (y :: ys)
    · simp only [hx, if_true]
      have := argmaxFirst_lt_length d (y :: ys) (by simp)
      simpa [List.length_cons] using Nat.succ_lt_succ this
    · simp [hx]

theorem getD_argmaxFirst_eq_listMax {α : Type*} [LinearOrder α] (d : α) :
    ∀ (l : List α), l ≠ [] → l.getD (argmaxFirst d l) d = listMax d l
  | [], h => absurd rfl h
  | [x], _ => rfl
  | x :: y :: ys, _ => by
    simp only [argmaxFirst, listMax]
    by_cases hx : x < listMax d (y :: ys)
    · rw [if_pos hx, List.getD_cons_succ,
        getD_argmaxFirst_eq_listMax d (y :: ys) (by simp), max_eq_right hx.le]
    · rw [if_neg hx, List.getD_cons_zero, max_eq_left (not_lt.mp hx)]

theorem getD_le_listMax {α : Type*} [LinearOrder α] (d : α) :
    ∀ (l : List α) (k : ℕ), k < l.length → l.getD k d ≤ listMax d l
  | [], k, h => absurd h (by simp)
  | [x], 0, _ => le_of_eq rfl
  | [x], k + 1, h => absurd h (by simp)
  | x :: y :: ys, 0, _ => by
    rw [List.getD_cons_zero]
    simp only [listMax]
    exact le_max_left _ _
  | x :: y :: ys, k + 1, h => by
    have ih := getD_le_listMax d (y :: ys) k (by
      simpa using Nat.succ_lt_succ_iff.mp (by simpa using h))
    rw [List.getD_cons_succ]
    refine ih.trans ?_
    simp only [listMax]
    exact le_max_right _ _

theorem getD_lt_of_lt_argmaxFirst {α : Type*} [LinearOrder α] (d : α) :
    ∀ (l : List α) (k : ℕ), k < argmaxFirst d l →
      l.getD k d < l.getD (argmaxFirst d l) d
  | [], k, h => absurd h (by simp [argmaxFirst])
  | [x], k, h => absurd h (by simp [argmaxFirst])
  | x :: y :: ys, k, h => by
    simp only [argmaxFirst] at h ⊢
    by_cases hx : x < listMax d (y :: ys)
    · rw [if_pos hx] at h ⊢
      match k with
      | 0 =>
        rw [List.getD_cons_succ, getD_argmaxFirst_eq_listMax d (y :: ys) (by simp),
          List.getD_cons_zero]
        exact hx
      | k + 1 =>
        rw [List.getD_cons_succ, List.getD_cons_succ]
        exact getD_lt_of_lt_argmaxFirst d (y :: ys) k (Nat.succ_lt_succ_iff.mp h)
    · rw [if_neg hx] at h
      exact absurd h (Nat.not_lt_zero k)

/-! ### Bounding boxes over `ℚ` and spec-modelled geometry

The box formats follow `hutil.detection.bbox.BBox`: `LTWH` is
`[xmin, ymin, width, height]`, `XYWH` is `[cx, cy, width, height]`,
`LTRB` is `[xmin, ymin, xmax, ymax]`. -/

/-- A bounding box as four exact rationals; the meaning of the components
is the format noted at each use (LTWH, XYWH or LTRB). -/
structure BoxQ where
  c1 : ℚ
  c2 : ℚ
  c3 : ℚ
  c4 : ℚ
  deriving DecidableEq, Repr

/-- Modelled from the spec: `transform_bbox(·, BBox.LTWH, BBox.XYWH)` of
`hutil.detection.bbox` is not under `src/`; the format constants say LTWH is
`[l, t, w, h]` and XYWH is the centered `[cx, cy, w, h]`. -/
def ltwh_to_xywh (b : BoxQ) : BoxQ :=
  ⟨b.c1 + b.c3 / 2, b.c2 + b.c4 / 2, b.c3, b.c4⟩

/-- Modelled from the spec: `BBox.convert(·, BBox.XYWH, BBox.LTRB)` of
`hutil.detection.bbox` is not under `src/`; XYWH is the centered
`[cx, cy, w, h]` and LTRB is `[xmin, ymin, xmax, ymax]`. -/
def xywh_to_ltrb (b : BoxQ) : BoxQ :=
  ⟨b.c1 - b.c3 / 2, b.c2 - b.c4 / 2, b.c1 + b.c3 / 2, b.c2 + b.c4 / 2⟩

/-- Modelled from the spec: the "geometric IoU computation" of
`hutil.detection.iou` is not under `src/`.  Intersection-over-union of two
LTRB boxes: clamped intersection area over union area. -/
def iou_ltrb (a b : BoxQ) : ℚ :=
  let iw := max 0 (min a.c3 b.c3 - max a.c1 b.c1)
  let ih := max 0 (min a.c4 b.c4 - max a.c2 b.c2)
  let inter := iw * ih
  let areaA := (a.c3 - a.c1) * (a.c4 - a.c2)
  let areaB := (b.c3 - b.c1) * (b.c4 - b.c2)
  inter / (areaA + areaB - inter)

/-- Modelled from the spec: `iou_11` of `hutil.detection.iou` is not under
`src/`; IoU of two single boxes given in the `BBox` default LTWH format. -/
def iou_11 (a b : BoxQ) : ℚ :=
  iou_ltrb (xywh_to_ltrb (ltwh_to_xywh a)) (xywh_to_ltrb (ltwh_to_xywh b))

/-- Modelled from the spec: `iou_1m(bbox, anchors, format=BBox.XYWH)` of
`hutil.detection.iou` is not under `src/`; IoU of one XYWH box with each of
a list of XYWH boxes. -/
def iou_1m (b : BoxQ) (anchors : List BoxQ) : List ℚ :=
  anchors.map (fun a => iou_ltrb (xywh_to_ltrb b) (xywh_to_ltrb a))

/-- Modelled from the spec: `iou_mn` of `horch.detection.iou` is not under
`src/`; the pairwise IoU matrix of two lists of LTRB boxes, one row per box
of the first list. -/
def iou_mn (bs as : List BoxQ) : List (List ℚ) :=
  bs.map (fun b => as.map (fun a => iou_ltrb b a))

/-! ### `get_locations` (`src/hutil/detection/__init__.py`, lines 33-49) -/

/-- One downsampling step of `get_locations`: `l -> (l - 1) // 2 + 1` with
Python floor division, applied to both components. -/
def shrinkLoc (p : ℤ × ℤ) : ℤ × ℤ :=
  (Int.fdiv (p.1 - 1) 2 + 1, Int.fdiv (p.2 - 1) 2 + 1)

/-- The `locations` list built by the loop of `get_locations`:
`locLoop size n` appends the shrink of the last element `n` times,
starting from `[size]`. -/
def locLoop (size : ℤ × ℤ) : ℕ → List (ℤ × ℤ)
  | 0 => [size]
  | n + 1 =>
    let prev := locLoop size n
    prev ++ [shrinkLoc (prev.getLastD size)]

/-- Python `xs[-k:]` for `k ≥ 1`: the last `min k (length xs)` elements. -/
def pyLastSlice {α : Type*} (k : ℕ) (xs : List α) : List α :=
  xs.drop (xs.length - k)

/-- `get_locations(size, strides)`: `int(np.log2(strides[-1]))` is embedded
as `Nat.log2` of the last stride (exact-real idealisation of the float
`np.log2`), the loop as `locLoop`, the final slice as `pyLastSlice`. -/
def get_locations (size : ℤ × ℤ) (strides : List ℕ) : List (ℤ × ℤ) :=
  let num_levels := Nat.log2 (strides.getLastD 1)
  pyLastSlice strides.length (locLoop size num_levels)

theorem locLoop_eq_iterates (size : ℤ × ℤ) :
    ∀ n : ℕ, locLoop size n = (List.range (n + 1)).map (fun k => shrinkLoc^[k] size)
  | 0 => by simp [locLoop]
  | n + 1 => by
    have ih := locLoop_eq_iterates size n
    have hne : locLoop size n ≠ [] := by
      rw [ih]; simp [List.range_succ]
    have hlast : (locLoop size n).getLastD size = shrinkLoc^[n] size := by
      rw [ih, List.getLastD_eq_getLast?]
      rw [List.getLast?_eq_getLast _ (by rw [← ih]; exact hne)]
      simp [List.getLast_eq_getElem, List.range_succ]
    show locLoop size n ++ [shrinkLoc ((locLoop size n).getLastD size)]
        = (List.range (n + 2)).map (fun k => shrinkLoc^[k] size)
    rw [hlast, ih, List.range_succ (n := n + 1), List.map_append]
    simp [Function.iterate_succ_apply']

theorem length_locLoop (size : ℤ × ℤ) (n : ℕ) : (locLoop size n).length = n + 1 := by
  rw [locLoop_eq_iterates]; simp

/-- C8: for a size with positive components and a non-empty strides list
with `int(log2(strides[-1])) + 1 >= len(strides)`, `get_locations` returns
exactly `len(strides)` pairs, namely the last `len(strides)` elements of
the sequence that starts at `(lx, ly)` and applies `l -> (l - 1) // 2 + 1`
componentwise `int(log2(strides[-1]))` times. -/
theorem get_locations_last_slice_of_shrink_seq (lx ly : ℤ) (strides : List ℕ)
    (hx : 0 < lx) (hy : 0 < ly) (hne : strides ≠ [])
    (hlen : strides.length ≤ Nat.log2 (strides.getLastD 1) + 1) :
    (get_locations (lx, ly) strides).length = strides.length ∧
    ∀ i, i < strides.length →
      (get_locations (lx, ly) strides).getD i (lx, ly)
        = shrinkLoc^[Nat.log2 (strides.getLastD 1) + 1 - strides.length + i] (lx, ly) := by
  have hN := length_locLoop (lx, ly) (Nat.log2 (strides.getLastD 1))
  constructor
  · show (pyLastSlice strides.length (locLoop (lx, ly) _)).length = strides.length
    unfold pyLastSlice
    rw [List.length_drop, hN]
    omega
  · intro i hi
    show (pyLastSlice strides.length (locLoop (lx, ly) _)).getD i (lx, ly) = _
    unfold pyLastSlice
    have hdl : i < ((locLoop (lx, ly) (Nat.log2 (strides.getLastD 1))).drop
        ((locLoop (lx, ly) (Nat.log2 (strides.getLastD 1))).length - strides.length)).length := by
      rw [List.length_drop, hN]; omega
    rw [List.getD_eq_getElem _ _ hdl, List.getElem_drop,
      List.getElem_of_eq (locLoop_eq_iterates (lx, ly) _) (by
        rw [List.length_drop] at hdl
        omega),
      List.getElem_map, List.getElem_range]
    congr 1
    omega

/-! ### The box coder (`coords_to_target` / `target_to_coords`) over exact reals -/

/-- A bounding box over the reals; used where the source applies `log` or
`exp` to box components. -/
structure BoxR where
  c1 : ℝ
  c2 : ℝ
  c3 : ℝ
  c4 : ℝ

/-- `coords_to_target(gt_box, anchors)` (`src/hutil/detection/__init__.py`
lines 64-67 and `src/horch/detection/two/e2e.py` lines 16-19) for a single
XYWH ground-truth box and a single XYWH anchor, over exact reals:
`t_xy = (g_xy - a_xy) / a_wh`, `t_wh = log (g_wh / a_wh)`. -/
noncomputable def coords_to_target (gt_box anchors : BoxR) : BoxR :=
  ⟨(gt_box.c1 - anchors.c1) / anchors.c3,
   (gt_box.c2 - anchors.c2) / anchors.c4,
   Real.log (gt_box.c3 / anchors.c3),
   Real.log (gt_box.c4 / anchors.c4)⟩

/-- `target_to_coords(loc_t, anchors)` (`src/horch/detection/two/e2e.py`
lines 38-41): centers `t_xy * a_wh + a_xy`, sizes `exp (t_wh) * a_wh`. -/
noncomputable def target_to_coords (loc_t anchors : BoxR) : BoxR :=
  ⟨loc_t.c1 * anchors.c3 + anchors.c1,
   loc_t.c2 * anchors.c4 + anchors.c2,
   Real.exp loc_t.c3 * anchors.c3,
   Real.exp loc_t.c4 * anchors.c4⟩

/-- C1: for every ground-truth box and anchor with strictly positive width
and height, decoding with `target_to_coords` the output of
`coords_to_target` against the same anchor returns exactly the original
ground-truth box, over exact real arithmetic. -/
theorem target_to_coords_coords_to_target (gt_box anchors : BoxR)
    (hgw : 0 < gt_box.c3) (hgh : 0 < gt_box.c4)
    (haw : 0 < anchors.c3) (hah : 0 < anchors.c4) :
    target_to_coords (coords_to_target gt_box anchors) anchors = gt_box := by
  obtain ⟨g1, g2, g3, g4⟩ := gt_box
  obtain ⟨a1, a2, a3, a4⟩ := anchors
  simp only at hgw hgh haw hah
  simp only [coords_to_target, target_to_coords, BoxR.mk.injEq]
  refine ⟨?_, ?_, ?_, ?_⟩
  · field_simp
  · field_simp
  · rw [Real.exp_log (div_pos hgw haw)]; field_simp
  · rw [Real.exp_log (div_pos hgh hah)]; field_simp

/-- Witness for C1 at the concrete ground-truth box `(1/2, 1/2, 1/4, 1/3)`
and anchor `(1/2, 1/2, 1/8, 1/6)`. -/
theorem target_to_coords_coords_to_target_witness :
    (0 : ℝ) < (BoxR.mk (1/2) (1/2) (1/4) (1/3)).c3 ∧
    (0 : ℝ) < (BoxR.mk (1/2) (1/2) (1/4) (1/3)).c4 ∧
    (0 : ℝ) < (BoxR.mk (1/2) (1/2) (1/8) (1/6)).c3 ∧
    (0 : ℝ) < (BoxR.mk (1/2) (1/2) (1/8) (1/6)).c4 ∧
    target_to_coords
      (coords_to_target (BoxR.mk (1/2) (1/2) (1/4) (1/3)) (BoxR.mk (1/2) (1/2) (1/8) (1/6)))
      (BoxR.mk (1/2) (1/2) (1/8) (1/6)) = BoxR.mk (1/2) (1/2) (1/4) (1/3) :=
  ⟨by norm_num, by norm_num, by norm_num, by norm_num,
    target_to_coords_coords_to_target _ _ (by norm_num) (by norm_num) (by norm_num) (by norm_num)⟩

/-- Witness for C8 at size `(64, 48)` and strides `[8, 16, 32]`. -/
theorem get_locations_last_slice_of_shrink_seq_witness :
    (0 : ℤ) < 64 ∧ (0 : ℤ) < 48 ∧ ([8, 16, 32] : List ℕ) ≠ [] ∧
    ([8, 16, 32] : List ℕ).length ≤ Nat.log2 (([8, 16, 32] : List ℕ).getLastD 1) + 1 ∧
    ((get_locations (64, 48) [8, 16, 32]).length = ([8, 16, 32] : List ℕ).length ∧
     ∀ i, i < ([8, 16, 32] : List ℕ).length →
       (get_locations (64, 48) [8, 16, 32]).getD i (64, 48)
         = shrinkLoc^[Nat.log2 (([8, 16, 32] : List ℕ).getLastD 1) + 1
             - ([8, 16, 32] : List ℕ).length + i] (64, 48)) :=
  have hlog : Nat.log2 32 = 5 := by
    rw [Nat.log2_eq_log_two]
    exact Nat.log_eq_of_pow_le_of_lt_pow (by norm_num) (by norm_num)
  ⟨by decide, by decide, by decide, by simp [hlog],
    get_locations_last_slice_of_shrink_seq 64 48 [8, 16, 32]
      (by decide) (by decide) (by decide) (by simp [hlog])⟩

/-! ### `MultiBoxLoss.__init__` (`src/hutil/detection/__init__.py`, lines 228-237) -/

/-- `F.log_softmax(x)[j]` over exact reals: `x_j - log (sum_k exp x_k)`. -/
noncomputable def log_softmax (logits : List ℝ) (j : ℕ) : ℝ :=
  logits.getD j 0 - Real.log ((logits.map Real.exp).sum)

/-- `F.cross_entropy` on a single item over exact reals: the negative
log-softmax of the target class. -/
noncomputable def cross_entropy (logits : List ℝ) (target : ℕ) : ℝ :=
  -(log_softmax logits target)

/-- Modelled from the spec: `focal_loss2` lives in `hutil/nn/loss`, which is
not under `src/`; the spec only names focal loss next to hard-negative
mining, so it is modelled as the standard focal loss (`gamma = 2`) on the
softmax probability of the target class. -/
noncomputable def softmaxProb (logits : List ℝ) (j : ℕ) : ℝ :=
  Real.exp (logits.getD j 0) / (logits.map Real.exp).sum

noncomputable def focal_loss2 (logits : List ℝ) (target : ℕ) : ℝ :=
  -((1 - softmaxProb logits target) ^ 2 * Real.log (softmaxProb logits target))

/-- The state built by `MultiBoxLoss.__init__`: the mining ratio, the
debug-print probability and the selected classification criterion. -/
structure MultiBoxLoss where
  neg_pos_ratio : Option ℕ
  p : ℚ
  criterion : List ℝ → ℕ → ℝ

/-- `MultiBoxLoss.__init__(neg_pos_ratio, p, criterion)`: selects
`F.cross_entropy` for `'softmax'`, `focal_loss2` for `'focal'`, and raises
`ValueError` otherwise (embedded as `Except.error`). -/
noncomputable def MultiBoxLoss.init (neg_pos_ratio : Option ℕ) (p : ℚ) (criterion : String) :
    Except String MultiBoxLoss :=
  if criterion = "softmax" then .ok ⟨neg_pos_ratio, p, cross_entropy⟩
  else if criterion = "focal" then .ok ⟨neg_pos_ratio, p, focal_loss2⟩
  else .error "criterion must be one of softmax or focal"

/-- C7: `MultiBoxLoss.__init__` raises `ValueError` if and only if the
criterion string is neither `'softmax'` nor `'focal'`; `'softmax'` selects
cross-entropy and `'focal'` selects `focal_loss2`. -/
theorem multiBoxLoss_init_criterion (r : Option ℕ) (p : ℚ) :
    (∀ s : String, (∃ m, MultiBoxLoss.init r p s = .ok m) ↔ s = "softmax" ∨ s = "focal") ∧
    MultiBoxLoss.init r p "softmax" = .ok ⟨r, p, cross_entropy⟩ ∧
    MultiBoxLoss.init r p "focal" = .ok ⟨r, p, focal_loss2⟩ := by
  refine ⟨fun s => ?_, by simp [MultiBoxLoss.init], by simp [MultiBoxLoss.init]⟩
  unfold MultiBoxLoss.init
  by_cases h1 : s = "softmax"
  · simp [h1]
  · by_cases h2 : s = "focal" <;> simp [h1, h2]

/-! ### `average_precision` (`src/hutil/detection/__init__.py`, lines 514-526) -/

/-- The in-place backward pass of `average_precision`:
`mpre[i-1] = max(mpre[i-1], mpre[i])` for `i` from the end down to `1`. -/
def suffixMaxPass : List ℚ → List ℚ
  | [] => []
  | x :: xs =>
    match suffixMaxPass xs with
    | [] => [x]
    | y :: ys => max x y :: y :: ys

/-- `average_precision(recall, precision)`: pads `mrec = [0, *recall, 1]`
and `mpre = [0, *precision, 0]`, runs the backward maximum pass over
`mpre`, collects the indices `ii` where `mrec` changes, sums the area and
returns `(ap, mpre[:-1], mrec[:-1], ii)`. -/
def average_precision (rcl prc : List ℚ) : ℚ × List ℚ × List ℚ × List ℕ :=
  let mrec : List ℚ := 0 :: rcl ++ [1]
  let mpre := suffixMaxPass (0 :: prc ++ [0])
  let ii := ((List.range (mrec.length - 1)).filter
    (fun i => mrec.getD (i + 1) 0 ≠ mrec.getD i 0)).map (· + 1)
  let ap := (ii.map (fun i => (mrec.getD i 0 - mrec.getD (i - 1) 0) * mpre.getD i 0)).sum
  (ap, mpre.dropLast, mrec.dropLast, ii)

theorem length_suffixMaxPass : ∀ l : List ℚ, (suffixMaxPass l).length = l.length
  | [] => rfl
  | x :: xs => by
    have ih := length_suffixMaxPass xs
    simp only [suffixMaxPass]
    cases h : suffixMaxPass xs with
    | nil => rw [h] at ih; simp [← ih]
    | cons y ys => rw [h] at ih; simp [← ih]

theorem listMax_cons_of_ne_nil {α : Type*} [LinearOrder α] (d x : α) (l : List α)
    (h : l ≠ []) : listMax d (x :: l) = max x (listMax d l) := by
  cases l with
  | nil => exact absurd rfl h
  | cons z zs => simp [listMax]

theorem getD_suffixMaxPass : ∀ (l : List ℚ) (i : ℕ), i < l.length →
    (suffixMaxPass l).getD i 0 = listMax 0 (l.drop i)
  | [], i, h => absurd h (by simp)
  | x :: xs, 0, _ => by
    simp only [List.drop_zero, suffixMaxPass]
    cases h : suffixMaxPass xs with
    | nil =>
      have hx : xs = [] := by
        have hl := length_suffixMaxPass xs
        rw [h] at hl
        exact List.length_eq_zero.mp hl.symm
      subst hx; rfl
    | cons y ys =>
      have hxs : xs ≠ [] := by
        intro hcon
        rw [hcon] at h
        exact List.cons_ne_nil y ys h.symm
      have hy : y = listMax 0 xs := by
        have hrec := getD_suffixMaxPass xs 0 (List.length_pos.mpr hxs)
        rw [h] at hrec
        simpa using hrec
      rw [List.getD_cons_zero, hy, listMax_cons_of_ne_nil 0 x xs hxs]
  | x :: xs, i + 1, h => by
    simp only [suffixMaxPass]
    cases hm : suffixMaxPass xs with
    | nil =>
      have hx : xs = [] := by
        have hl := length_suffixMaxPass xs
        rw [hm] at hl
        exact List.length_eq_zero.mp hl.symm
      subst hx
      exact absurd h (by simp)
    | cons y ys =>
      have hrec := getD_suffixMaxPass xs i (Nat.succ_lt_succ_iff.mp (by simpa using h))
      rw [hm] at hrec
      rw [List.getD_cons_succ, List.drop_succ_cons]
      exact hrec

/-- C10: the second component of `average_precision(recall, precision)` is
the interpolated precision envelope: its `i`-th element is the maximum of
the elements of the padded list `[0, *precision, 0]` from position `i`
onward, and consequently each element is at least the next one. -/
theorem average_precision_envelope (rcl prc : List ℚ) :
    (∀ i, i < ((average_precision rcl prc).2.1).length →
      ((average_precision rcl prc).2.1).getD i 0
        = listMax 0 ((0 :: prc ++ [0]).drop i)) ∧
    (∀ i, i + 1 < ((average_precision rcl prc).2.1).length →
      ((average_precision rcl prc).2.1).getD (i + 1) 0
        ≤ ((average_precision rcl prc).2.1).getD i 0) := by
  set padded : List ℚ := 0 :: prc ++ [0] with hpadded
  have henv : (average_precision rcl prc).2.1 = (suffixMaxPass padded).dropLast := rfl
  have hlen : ((average_precision rcl prc).2.1).length = padded.length - 1 := by
    rw [henv, List.length_dropLast, length_suffixMaxPass]
  have hgetD : ∀ i, i < ((average_precision rcl prc).2.1).length →
      ((average_precision rcl prc).2.1).getD i 0
        = listMax 0 (padded.drop i) := by
    intro i hi
    have hi' : i < padded.length - 1 := hlen ▸ hi
    have hip : i < padded.length := Nat.lt_of_lt_of_le hi' (Nat.sub_le _ _)
    have hidrop : i < ((suffixMaxPass padded).dropLast).length := by
      rw [List.length_dropLast, length_suffixMaxPass]; exact hi'
    rw [henv, List.getD_eq_getElem _ _ hidrop, List.getElem_dropLast,
      ← List.getD_eq_getElem _ (0 : ℚ), getD_suffixMaxPass padded i hip]
  refine ⟨hgetD, fun i hi => ?_⟩
  have hi0 : i < ((average_precision rcl prc).2.1).length :=
    Nat.lt_of_succ_lt hi
  rw [hgetD i hi0, hgetD (i + 1) hi]
  have hip : i < padded.length := by
    have := hlen ▸ hi0
    exact Nat.lt_of_lt_of_le this (Nat.sub_le _ _)
  have hdropne : padded.drop (i + 1) ≠ [] := by
    have : i + 1 < padded.length := by
      have := hlen ▸ hi; omega
    intro hcon
    have := List.length_drop (i + 1) padded
    rw [hcon] at this
    simp at this
    omega
  rw [List.drop_eq_getElem_cons hip, listMax_cons_of_ne_nil _ _ _ hdropne]
  exact le_max_right _ _

/-- Witness for C10 at `recall = [1/2, 1]`, `precision = [1, 1/2]`,
examining the inequality between positions 1 and 2 of the envelope. -/
theorem average_precision_envelope_witness :
    1 + 1 < ((average_precision [1/2, 1] [1, 1/2]).2.1).length ∧
    ((average_precision [1/2, 1] [1, 1/2]).2.1).getD (1 + 1) 0
      ≤ ((average_precision [1/2, 1] [1, 1/2]).2.1).getD 1 0 :=
  ⟨by decide, (average_precision_envelope [1/2, 1] [1, 1/2]).2 1 (by decide)⟩

/-! ### `AP` (`src/hutil/detection/__init__.py`, lines 494-511) -/

/-- A `BBox` record as consumed by `mAP`/`AP`: image id, category id and
the bounding box in the `BBox` default LTWH format. -/
structure BBoxRec where
  image_id : ℤ
  category_id : ℤ
  bbox : BoxQ
  deriving DecidableEq, Repr

/-- The matching loop of `AP` (lines 498-504): detections are processed in
order; `max(enumerate(ious), key=...)` picks the first ground truth of
maximal IoU, and the detection is a true positive iff that IoU is strictly
above the threshold and the ground truth is unseen, in which case the
ground truth is marked seen.  Returns the TP flags and the final `seen`. -/
def tpLoop (gts : List BBoxRec) (iou_threshold : ℚ) :
    List BBoxRec → List Bool → List Bool × List Bool
  | [], seen => ([], seen)
  | dt :: rest, seen =>
    let ious := gts.map (fun gt => iou_11 dt.bbox gt.bbox)
    let hit : Bool := decide (iou_threshold < listMax 0 ious)
      && !(seen.getD (argmaxFirst 0 ious) false)
    let seen' := if hit then seen.set (argmaxFirst 0 ious) true else seen
    let r := tpLoop gts iou_threshold rest seen'
    (hit :: r.1, r.2)

/-- `np.cumsum` over rationals. -/
def cumsum (l : List ℚ) : List ℚ := (l.scanl (· + ·) 0).tail

/-- `AP(dts, gts, iou_threshold)` (lines 494-511): runs the matching loop,
forms cumulative TP/FP counts, recall and precision, and returns the first
component of `average_precision`. -/
def AP (dts gts : List BBoxRec) (iou_threshold : ℚ) : ℚ :=
  let TP := (tpLoop gts iou_threshold dts (List.replicate gts.length false)).1
  let n_positive : ℚ := gts.length
  let tp1 : List ℚ := TP.map (fun b => if b then 1 else 0)
  let FP : List ℚ := tp1.map (fun x => 1 - x)
  let acc_fp := cumsum FP
  let acc_tp := cumsum tp1
  let rcl := acc_tp.map (fun x => x / n_positive)
  let prc := List.zipWith (fun tp fp => tp / (fp + tp)) acc_tp acc_fp
  (average_precision rcl prc).1

theorem count_true_set : ∀ (l : List Bool) (j : ℕ), j < l.length →
    l.getD j false = false → (l.set j true).count true = l.count true + 1
  | [], j, h, _ => absurd h (by simp)
  | b :: bs, 0, _, hb => by
    simp only [List.getD_cons_zero] at hb
    subst hb
    simp [List.set_cons_zero, List.count_cons]
  | b :: bs, j + 1, h, hb => by
    simp only [List.getD_cons_succ] at hb
    have ih := count_true_set bs j (by simpa using h) hb
    simp only [List.set_cons_succ, List.count_cons, ih]
    omega

theorem tpLoop_length_and_count (gts : List BBoxRec) (θ : ℚ) (hgts : 0 < gts.length) :
    ∀ (dts : List BBoxRec) (seen : List Bool), seen.length = gts.length →
      (tpLoop gts θ dts seen).1.length = dts.length ∧
      (tpLoop gts θ dts seen).1.count true + seen.count true ≤ gts.length
  | [], seen, hlen => by
    refine ⟨rfl, ?_⟩
    simp only [tpLoop, List.count_nil, Nat.zero_add]
    exact hlen ▸ List.count_le_length true seen
  | dt :: rest, seen, hlen => by
    simp only [tpLoop]
    set ious := gts.map (fun gt => iou_11 dt.bbox gt.bbox) with hious
    have hlious : ious.length = gts.length := by simp [hious]
    have hne : ious ≠ [] := by
      intro hcon
      rw [hcon] at hlious
      simp at hlious
      omega
    have hjlt : argmaxFirst 0 ious < seen.length := by
      rw [hlen, ← hlious]
      exact argmaxFirst_lt_length 0 ious hne
    cases hhit : (decide (θ < listMax 0 ious)
        && !(seen.getD (argmaxFirst 0 ious) false)) with
    | false =>
      have ih := tpLoop_length_and_count gts θ hgts rest seen hlen
      constructor
      · simpa using ih.1
      · have h2 := ih.2
        simp only [Bool.false_eq_true, if_false, List.count_cons]
        have hite : (false == true) = false := rfl
        simp only [hite, Bool.false_eq_true, if_false]
        omega
    | true =>
      have hparts : θ < listMax 0 ious ∧ seen.getD (argmaxFirst 0 ious) false = false := by
        simpa using hhit
      have hlen' : (seen.set (argmaxFirst 0 ious) true).length = gts.length := by
        rw [List.length_set]; exact hlen
      have ih := tpLoop_length_and_count gts θ hgts rest
        (seen.set (argmaxFirst 0 ious) true) hlen'
      have hcount := count_true_set seen (argmaxFirst 0 ious) hjlt hparts.2
      constructor
      · simpa using ih.1
      · have h2 := ih.2
        rw [hcount] at h2
        simp only [if_true, List.count_cons]
        have hite : (true == true) = true := rfl
        simp only [hite, eq_self_iff_true, if_true]
        omega

/-- C6: in `AP`, each ground-truth box is matched to at most one detection:
the matching loop emits one flag per detection, and the number of true
positives is at most the number of ground-truth boxes. -/
theorem AP_true_positive_count_le (dts gts : List BBoxRec) (θ : ℚ)
    (hgts : 0 < gts.length) :
    (tpLoop gts θ dts (List.replicate gts.length false)).1.length = dts.length ∧
    (tpLoop gts θ dts (List.replicate gts.length false)).1.count true ≤ gts.length := by
  have h := tpLoop_length_and_count gts θ hgts dts (List.replicate gts.length false)
    (by simp)
  refine ⟨h.1, ?_⟩
  have := h.2
  simpa [List.count_replicate] using this

/-- Witness for C6: three detections against two ground truths. -/
theorem AP_true_positive_count_le_witness :
    0 < ([⟨0, 1, ⟨0, 0, 4, 4⟩⟩, ⟨0, 1, ⟨10, 10, 2, 2⟩⟩] : List BBoxRec).length ∧
    ((tpLoop [⟨0, 1, ⟨0, 0, 4, 4⟩⟩, ⟨0, 1, ⟨10, 10, 2, 2⟩⟩] (1/2)
        [⟨0, 1, ⟨0, 0, 4, 4⟩⟩, ⟨0, 1, ⟨0, 0, 4, 4⟩⟩, ⟨0, 1, ⟨10, 10, 2, 2⟩⟩]
        (List.replicate ([⟨0, 1, ⟨0, 0, 4, 4⟩⟩, ⟨0, 1, ⟨10, 10, 2, 2⟩⟩] : List BBoxRec).length false)).1.length
      = ([⟨0, 1, ⟨0, 0, 4, 4⟩⟩, ⟨0, 1, ⟨0, 0, 4, 4⟩⟩, ⟨0, 1, ⟨10, 10, 2, 2⟩⟩] : List BBoxRec).length ∧
     (tpLoop [⟨0, 1, ⟨0, 0, 4, 4⟩⟩, ⟨0, 1, ⟨10, 10, 2, 2⟩⟩] (1/2)
        [⟨0, 1, ⟨0, 0, 4, 4⟩⟩, ⟨0, 1, ⟨0, 0, 4, 4⟩⟩, ⟨0, 1, ⟨10, 10, 2, 2⟩⟩]
        (List.replicate ([⟨0, 1, ⟨0, 0, 4, 4⟩⟩, ⟨0, 1, ⟨10, 10, 2, 2⟩⟩] : List BBoxRec).length false)).1.count true
      ≤ ([⟨0, 1, ⟨0, 0, 4, 4⟩⟩, ⟨0, 1, ⟨10, 10, 2, 2⟩⟩] : List BBoxRec).length) :=
  ⟨by decide,
    AP_true_positive_count_le
      [⟨0, 1, ⟨0, 0, 4, 4⟩⟩, ⟨0, 1, ⟨0, 0, 4, 4⟩⟩, ⟨0, 1, ⟨10, 10, 2, 2⟩⟩]
      [⟨0, 1, ⟨0, 0, 4, 4⟩⟩, ⟨0, 1, ⟨10, 10, 2, 2⟩⟩] (1/2) (by decide)⟩

/-! ### `mAP` (`src/hutil/detection/__init__.py`, lines 421-445) -/

/-- The key list of `toolz.groupby(key, xs)`: the keys in order of first
occurrence. -/
def keysOf {α : Type*} (key : α → ℤ) (xs : List α) : List ℤ :=
  xs.foldl (fun ks x => if key x ∈ ks then ks else ks ++ [key x]) []

/-- `toolz.groupby(key, xs)[k]` (and `.get(k, [])`): the elements of `xs`
whose key is `k`, in order. -/
def groupOf {α : Type*} (key : α → ℤ) (xs : List α) (k : ℤ) : List α :=
  xs.filter (fun x => key x = k)

/-- `np.mean` of a rational list (`0` on the empty list, where NumPy would
return NaN). -/
def npMean (l : List ℚ) : ℚ := l.sum / l.length

/-- `mAP(detections, ground_truths, iou_threshold)` (lines 421-445):
groups by image id, iterates over the images of the ground truths, groups
each image by category, scores absent-detection classes as `0` and other
classes by `AP`, and averages twice. -/
def mAP (detections ground_truths : List BBoxRec) (iou_threshold : ℚ) : ℚ :=
  let image_ids := keysOf (fun b => b.image_id) ground_truths
  npMean (image_ids.map (fun i =>
    let i_dts := groupOf (fun b => b.image_id) detections i
    let i_gts := groupOf (fun b => b.image_id) ground_truths i
    let classes := keysOf (fun b => b.category_id) i_gts
    npMean (classes.map (fun c =>
      if groupOf (fun b => b.category_id) i_dts c = [] then 0
      else AP (groupOf (fun b => b.category_id) i_dts c)
        (groupOf (fun b => b.category_id) i_gts c) iou_threshold))))

theorem mem_keysOf_aux {α : Type*} (key : α → ℤ) :
    ∀ (xs : List α) (acc : List ℤ) (a : ℤ),
      (a ∈ xs.foldl (fun ks x => if key x ∈ ks then ks else ks ++ [key x]) acc) ↔
        a ∈ acc ∨ a ∈ xs.map key
  | [], acc, a => by simp
  | x :: xs, acc, a => by
    simp only [List.foldl_cons, List.map_cons, List.mem_cons]
    by_cases h : key x ∈ acc
    · rw [if_pos h, mem_keysOf_aux key xs acc a]
      constructor
      · rintro (ha | hm)
        · exact Or.inl ha
        · exact Or.inr (Or.inr hm)
      · rintro (ha | rfl | hm)
        · exact Or.inl ha
        · exact Or.inl h
        · exact Or.inr hm
    · rw [if_neg h, mem_keysOf_aux key xs (acc ++ [key x]) a]
      simp only [List.mem_append, List.mem_singleton]
      tauto

theorem nodup_keysOf_aux {α : Type*} (key : α → ℤ) :
    ∀ (xs : List α) (acc : List ℤ), acc.Nodup →
      (xs.foldl (fun ks x => if key x ∈ ks then ks else ks ++ [key x]) acc).Nodup
  | [], _, h => h
  | x :: xs, acc, h => by
    simp only [List.foldl_cons]
    by_cases hm : key x ∈ acc
    · rw [if_pos hm]
      exact nodup_keysOf_aux key xs acc h
    · rw [if_neg hm]
      refine nodup_keysOf_aux key xs _ ?_
      simp [List.nodup_append, h, hm]

/-- `keysOf` is the first-occurrence ordering of `List.dedup`'s key set. -/
theorem keysOf_perm_dedup {α : Type*} (key : α → ℤ) (xs : List α) :
    List.Perm (keysOf key xs) ((xs.map key).dedup) := by
  have h1 : (keysOf key xs).Nodup := nodup_keysOf_aux key xs [] List.nodup_nil
  rw [List.perm_ext_iff_of_nodup h1 (List.nodup_dedup _)]
  intro a
  rw [List.mem_dedup]
  unfold keysOf
  rw [mem_keysOf_aux]
  simp

theorem npMean_perm (l₁ l₂ : List ℚ) (h : List.Perm l₁ l₂) : npMean l₁ = npMean l₂ := by
  unfold npMean
  rw [h.sum_eq, h.length_eq]

/-- C5: `mAP` is the mean over the images appearing in the ground truths
of the mean over each image's ground-truth classes of the per-class `AP`,
where a ground-truth class with no detections of that class on that image
contributes `0`; images appearing only in the detections are ignored. -/
theorem mAP_mean_over_gt_images (dts gts : List BBoxRec) (θ : ℚ) :
    mAP dts gts θ
      = npMean (((gts.map (fun b => b.image_id)).dedup).map (fun i =>
          npMean ((((gts.filter (fun g => g.image_id = i)).map
              (fun b => b.category_id)).dedup).map (fun c =>
            if (dts.filter (fun d => d.image_id = i)).filter
                (fun d => d.category_id = c) = [] then 0
            else AP ((dts.filter (fun d => d.image_id = i)).filter
                (fun d => d.category_id = c))
              ((gts.filter (fun g => g.image_id = i)).filter
                (fun g => g.category_id = c)) θ)))) := by
  have hinner : ∀ i : ℤ,
      npMean ((keysOf (fun b => b.category_id)
          (groupOf (fun b => b.image_id) gts i)).map (fun c =>
        if groupOf (fun b => b.category_id)
            (groupOf (fun b => b.image_id) dts i) c = [] then 0
        else AP (groupOf (fun b => b.category_id)
            (groupOf (fun b => b.image_id) dts i) c)
          (groupOf (fun b => b.category_id)
            (groupOf (fun b => b.image_id) gts i) c) θ))
      = npMean ((((gts.filter (fun g => g.image_id = i)).map
            (fun b => b.category_id)).dedup).map (fun c =>
          if (dts.filter (fun d => d.image_id = i)).filter
              (fun d => d.category_id = c) = [] then 0
          else AP ((dts.filter (fun d => d.image_id = i)).filter
              (fun d => d.category_id = c))
            ((gts.filter (fun g => g.image_id = i)).filter
              (fun g => g.category_id = c)) θ)) := by
    intro i
    exact npMean_perm _ _
      ((keysOf_perm_dedup (fun b => b.category_id)
        (groupOf (fun b => b.image_id) gts i)).map _)
  calc mAP dts gts θ
      = npMean ((keysOf (fun b => b.image_id) gts).map (fun i =>
          npMean ((keysOf (fun b => b.category_id)
              (groupOf (fun b => b.image_id) gts i)).map (fun c =>
            if groupOf (fun b => b.category_id)
                (groupOf (fun b => b.image_id) dts i) c = [] then 0
            else AP (groupOf (fun b => b.category_id)
                (groupOf (fun b => b.image_id) dts i) c)
              (groupOf (fun b => b.category_id)
                (groupOf (fun b => b.image_id) gts i) c) θ)))) := rfl
    _ = npMean (((gts.map (fun b => b.image_id)).dedup).map (fun i =>
          npMean ((keysOf (fun b => b.category_id)
              (groupOf (fun b => b.image_id) gts i)).map (fun c =>
            if groupOf (fun b => b.category_id)
                (groupOf (fun b => b.image_id) dts i) c = [] then 0
            else AP (groupOf (fun b => b.category_id)
                (groupOf (fun b => b.image_id) dts i) c)
              (groupOf (fun b => b.category_id)
                (groupOf (fun b => b.image_id) gts i) c) θ)))) :=
        npMean_perm _ _ ((keysOf_perm_dedup (fun b => b.image_id) gts).map _)
    _ = _ := by
        congr 1
        refine List.map_congr_left (fun i _ => ?_)
        exact hinner i

/-! ### `MultiBoxLoss.forward` (`src/hutil/detection/__init__.py`, lines 239-296) -/

/-- One summand of `F.smooth_l1_loss` (default `beta = 1`). -/
noncomputable def smooth_l1 (x y : ℝ) : ℝ :=
  if |x - y| < 1 then (x - y) ^ 2 / 2 else |x - y| - 1 / 2

/-- `F.smooth_l1_loss(p, t, reduction='sum')` restricted to one box. -/
noncomputable def smooth_l1_box (p t : BoxR) : ℝ :=
  smooth_l1 p.c1 t.c1 + smooth_l1 p.c2 t.c2 + smooth_l1 p.c3 t.c3 + smooth_l1 p.c4 t.c4

/-- Boolean-mask tensor indexing `xs[mask]`. -/
def maskSelect {α : Type*} (mask : List Bool) (xs : List α) : List α :=
  ((mask.zip xs).filter (fun p => p.1)).map (fun p => p.2)

/-- One feature level's inputs to `MultiBoxLoss.forward`: per-anchor box
predictions, class logits, box targets, class targets and the optional
ignore mask. -/
structure LossLevel where
  loc_p : List BoxR
  cls_p : List (List ℝ)
  loc_t : List BoxR
  cls_t : List ℕ
  ignore : Option (List Bool)

/-- `pos = cls_t != 0`. -/
def posMask (L : LossLevel) : List Bool :=
  L.cls_t.map (fun t => decide (t ≠ 0))

/-- `torch.topk(v, k)[0].sum()`: the sum of the `k` largest entries,
obtained from a descending insertion sort. -/
noncomputable def topkSum (k : ℕ) (l : List ℝ) : ℝ :=
  ((List.insertionSort (· ≥ ·) l).take k).sum

/-- The per-level localisation term of `MultiBoxLoss.forward` (lines
248-259): `0` when the level has no positive anchor (`continue`); the
summed smooth-L1 over all entries when the prediction shape does not match
the mask, over the positive anchors otherwise; divided by `num_pos`. -/
noncomputable def locLossLevel (L : LossLevel) : ℝ :=
  let pos := posMask L
  let num_pos := pos.count true
  if num_pos = 0 then 0
  else if L.loc_p.length ≠ pos.length then
    (((L.loc_p.zip L.loc_t).map (fun pt => smooth_l1_box pt.1 pt.2)).sum) / num_pos
  else
    (((maskSelect pos (L.loc_p.zip L.loc_t)).map
      (fun pt => smooth_l1_box pt.1 pt.2)).sum) / num_pos

/-- The hard-negative candidate values of a level: the background
negative-log-softmax `-F.log_softmax(cls_p[mask])[..., 0]` of the anchors
that are neither positive nor (when an ignore mask is given) ignored. -/
noncomputable def negCandidates (L : LossLevel) : List ℝ :=
  let pos := posMask L
  let mask := match L.ignore with
    | none => pos.map (fun b => !b)
    | some ig => List.zipWith (fun p i => !p && !i) pos ig
  (maskSelect mask L.cls_p).map (fun cp => -(log_softmax cp 0))

/-- The per-level classification term of `MultiBoxLoss.forward` (lines
261-291): `0` when the level has no positive anchor; hard-negative mining
when `neg_pos_ratio` is set; separate positive/non-ignored sums when only
an ignore mask is given (the `one_hot` reshaping for the focal criterion is
absorbed into the criterion function); and the plain summed criterion
otherwise (likewise absorbing the dead `F.softmax` transpose branch). -/
noncomputable def clsLossLevel (m : MultiBoxLoss) (L : LossLevel) : ℝ :=
  let pos := posMask L
  let num_pos := pos.count true
  if num_pos = 0 then 0
  else
    match m.neg_pos_ratio with
    | some ratio =>
      let cls_loss_pos := ((maskSelect pos (L.cls_p.zip L.cls_t)).map
        (fun ct => m.criterion ct.1 ct.2)).sum
      let num_neg := min (ratio * num_pos) (negCandidates L).length
      (cls_loss_pos + topkSum num_neg (negCandidates L)) / num_pos
    | none =>
      match L.ignore with
      | some ig =>
        let cls_loss_pos := ((maskSelect pos (L.cls_p.zip L.cls_t)).map
          (fun ct => m.criterion ct.1 ct.2)).sum
        let mask := List.zipWith (fun p i => !p && !i) pos ig
        let cls_loss_neg := ((maskSelect mask (L.cls_p.zip L.cls_t)).map
          (fun ct => m.criterion ct.1 ct.2)).sum
        (cls_loss_pos + cls_loss_neg) / num_pos
      | none =>
        (((L.cls_p.zip L.cls_t).map (fun ct => m.criterion ct.1 ct.2)).sum) / num_pos

/-- `MultiBoxLoss.forward` (lines 239-296): accumulates the localisation
and classification terms over the levels and returns
`loss = cls_loss + loc_loss`; the `random() < p` debug print does not
affect the returned value. -/
noncomputable def MultiBoxLoss.forward (m : MultiBoxLoss) (levels : List LossLevel) : ℝ :=
  (levels.map (fun L => clsLossLevel m L)).sum
    + (levels.map (fun L => locLossLevel L)).sum

/-- C4: with `neg_pos_ratio` set, for a level with at least one positive
anchor the classification loss is the summed criterion over the positive
anchors plus the sum of the `k` largest background negative-log-softmax
values over the anchors that are neither positive nor ignored, divided by
the number of positives, with `k = min(neg_pos_ratio * num_pos, #candidates)`;
the top-`k` really sums the `k` largest: it takes the first `k` elements of
a descending-sorted permutation of the candidates. -/
theorem clsLossLevel_hard_negative_mining (m : MultiBoxLoss) (L : LossLevel)
    (ratio : ℕ) (hr : m.neg_pos_ratio = some ratio)
    (hpos : 0 < (posMask L).count true) :
    clsLossLevel m L
      = (((maskSelect (posMask L) (L.cls_p.zip L.cls_t)).map
            (fun ct => m.criterion ct.1 ct.2)).sum
          + (((List.insertionSort (· ≥ ·) (negCandidates L)).take
              (min (ratio * (posMask L).count true) (negCandidates L).length)).sum))
          / (posMask L).count true ∧
    List.Perm (List.insertionSort (· ≥ ·) (negCandidates L)) (negCandidates L) ∧
    List.Sorted (· ≥ ·) (List.insertionSort (· ≥ ·) (negCandidates L)) := by
  refine ⟨?_, List.perm_insertionSort _ _, List.sorted_insertionSort _ _⟩
  unfold clsLossLevel topkSum
  rw [hr]
  rw [if_neg (Nat.pos_iff_ne_zero.mp hpos)]

/-- Witness for C4: one level with a single positive anchor and two
background anchors, ratio 3, cross-entropy criterion. -/
theorem clsLossLevel_hard_negative_mining_witness :
    (MultiBoxLoss.mk (some 3) 0 cross_entropy).neg_pos_ratio = some 3 ∧
    0 < (posMask (LossLevel.mk [] [[0, 1], [0, 0], [1, 0]] [] [1, 0, 0] none)).count true ∧
    (clsLossLevel (MultiBoxLoss.mk (some 3) 0 cross_entropy)
        (LossLevel.mk [] [[0, 1], [0, 0], [1, 0]] [] [1, 0, 0] none)
      = (((maskSelect (posMask (LossLevel.mk [] [[0, 1], [0, 0], [1, 0]] [] [1, 0, 0] none))
            (([[0, 1], [0, 0], [1, 0]] : List (List ℝ)).zip ([1, 0, 0] : List ℕ))).map
            (fun ct => (MultiBoxLoss.mk (some 3) 0 cross_entropy).criterion ct.1 ct.2)).sum
          + (((List.insertionSort (· ≥ ·)
                (negCandidates (LossLevel.mk [] [[0, 1], [0, 0], [1, 0]] [] [1, 0, 0] none))).take
              (min (3 * (posMask (LossLevel.mk [] [[0, 1], [0, 0], [1, 0]] [] [1, 0, 0] none)).count true)
                (negCandidates (LossLevel.mk [] [[0, 1], [0, 0], [1, 0]] [] [1, 0, 0] none)).length)).sum))
          / (posMask (LossLevel.mk [] [[0, 1], [0, 0], [1, 0]] [] [1, 0, 0] none)).count true ∧
     List.Perm (List.insertionSort (· ≥ ·)
        (negCandidates (LossLevel.mk [] [[0, 1], [0, 0], [1, 0]] [] [1, 0, 0] none)))
        (negCandidates (LossLevel.mk [] [[0, 1], [0, 0], [1, 0]] [] [1, 0, 0] none)) ∧
     List.Sorted (· ≥ ·) (List.insertionSort (· ≥ ·)
        (negCandidates (LossLevel.mk [] [[0, 1], [0, 0], [1, 0]] [] [1, 0, 0] none)))) :=
  ⟨rfl, by decide,
    clsLossLevel_hard_negative_mining (MultiBoxLoss.mk (some 3) 0 cross_entropy)
      (LossLevel.mk [] [[0, 1], [0, 0], [1, 0]] [] [1, 0, 0] none) 3 rfl (by decide)⟩

/-- C9: when no level has a positive anchor and the debug-print probability
is `0`, `MultiBoxLoss.forward` returns exactly `0`: every level is skipped
and contributes to neither loss term. -/
theorem forward_zero_of_no_positives (m : MultiBoxLoss) (levels : List LossLevel)
    (hp : m.p = 0) (h : ∀ L ∈ levels, ∀ t ∈ L.cls_t, t = 0) :
    MultiBoxLoss.forward m levels = 0 := by
  have hcount : ∀ L ∈ levels, (posMask L).count true = 0 := by
    intro L hL
    rw [List.count_eq_zero]
    intro hmem
    rcases List.mem_map.mp hmem with ⟨t, ht, hdec⟩
    have : t ≠ 0 := of_decide_eq_true hdec
    exact this (h L hL t ht)
  unfold MultiBoxLoss.forward
  rw [List.sum_eq_zero, List.sum_eq_zero, add_zero]
  · intro x hx
    rcases List.mem_map.mp hx with ⟨L, hL, rfl⟩
    unfold locLossLevel
    rw [if_pos (hcount L hL)]
  · intro x hx
    rcases List.mem_map.mp hx with ⟨L, hL, rfl⟩
    unfold clsLossLevel
    rw [if_pos (hcount L hL)]

/-- Witness for C9: two levels, all class targets zero. -/
theorem forward_zero_of_no_positives_witness :
    (MultiBoxLoss.mk (some 3) 0 cross_entropy).p = 0 ∧
    (∀ L ∈ [LossLevel.mk [] [[0, 1]] [] [0] none,
            LossLevel.mk [] [[0, 1], [1, 0]] [] [0, 0] (some [false, true])],
      ∀ t ∈ L.cls_t, t = 0) ∧
    MultiBoxLoss.forward (MultiBoxLoss.mk (some 3) 0 cross_entropy)
      [LossLevel.mk [] [[0, 1]] [] [0] none,
       LossLevel.mk [] [[0, 1], [1, 0]] [] [0, 0] (some [false, true])] = 0 :=
  ⟨rfl, by decide,
    forward_zero_of_no_positives (MultiBoxLoss.mk (some 3) 0 cross_entropy)
      [LossLevel.mk [] [[0, 1]] [] [0] none,
       LossLevel.mk [] [[0, 1], [1, 0]] [] [0, 0] (some [false, true])]
      rfl (by decide)⟩

/-! ### `match_anchors` / `match_anchors2` (`src/horch/detection/two/e2e.py`) -/

/-- An annotation as consumed by the anchor matchers: the LTWH bounding
box and the category id. -/
structure AnnRec where
  bbox : BoxQ
  category_id : ℤ
  deriving DecidableEq, Repr

/-- The target triple returned by the matchers: `loc_t`, `cls_t` and the
optional ignore mask. -/
structure MatchTarget where
  loc_t : List BoxR
  cls_t : List ℤ
  ig : Option (List Bool)

/-- Embedding of a rational box into the reals. -/
def boxR (b : BoxQ) : BoxR := ⟨(b.c1 : ℝ), (b.c2 : ℝ), (b.c3 : ℝ), (b.c4 : ℝ)⟩

def zeroBoxQ : BoxQ := ⟨0, 0, 0, 0⟩

def zeroBoxR : BoxR := ⟨0, 0, 0, 0⟩

/-- One iteration of the positive-threshold loop of `match_anchors`
(lines 102-105): masked writes of the encoded coordinates and the label at
every anchor whose IoU with this annotation exceeds `pos_thresh`.  Each
element of `rows` packages one annotation's IoU row, XYWH box and label. -/
noncomputable def posThreshStep (pt : ℚ) (a_xywh : List BoxQ)
    (st : List BoxR × List ℤ) (rbl : (List ℚ × BoxQ) × ℤ) : List BoxR × List ℤ :=
  (List.zipWith (fun (pa : BoxR × BoxQ) (v : ℚ) =>
      if pt < v then coords_to_target (boxR rbl.1.2) (boxR pa.2) else pa.1)
    (st.1.zip a_xywh) rbl.1.1,
   List.zipWith (fun c v => if pt < v then rbl.2 else c) st.2 rbl.1.1)

/-- The max-IoU overwrite shared by both matchers (lines 68-72 and
107-111): each annotation writes its label and its encoded box at its
first-maximal anchor; at duplicate indices the later annotation wins, as
for in-order advanced-indexing assignment. -/
noncomputable def maxIouStep (a_xywh : List BoxQ)
    (st : List BoxR × List ℤ) (rbl : (List ℚ × BoxQ) × ℤ) : List BoxR × List ℤ :=
  (st.1.set (argmaxFirst 0 rbl.1.1)
      (coords_to_target (boxR rbl.1.2)
        (boxR (a_xywh.getD (argmaxFirst 0 rbl.1.1) zeroBoxQ))),
   st.2.set (argmaxFirst 0 rbl.1.1) rbl.2)

/-- The ignore mask shared by both matchers (lines 76-78 and 115-117):
`(cls_t == 0) & ((ious >= neg_thresh).sum(dim=0) != 0)`. -/
def ignoreMask (nθ : ℚ) (ious : List (List ℚ)) (cls : List ℤ) (n : ℕ) : List Bool :=
  (List.range n).map (fun j =>
    decide (cls.getD j 0 = 0) && decide (∃ row ∈ ious, nθ ≤ row.getD j 0))

/-- `match_anchors` (`src/horch/detection/two/e2e.py`, lines 82-118), the
CPU loop implementation.  Box data and IoU comparisons are exact
rationals, encoded boxes exact reals; `neg_thresh=None` is `none` (Python
truthiness also treats `0.0` as unset). -/
noncomputable def match_anchors (anns : List AnnRec) (a_xywh a_ltrb : List BoxQ)
    (pos_thresh : ℚ) (neg_thresh : Option ℚ) (get_label : AnnRec → ℤ) : MatchTarget :=
  let num_anchors := a_xywh.length
  let loc_t0 : List BoxR := List.replicate num_anchors zeroBoxR
  let cls_t0 : List ℤ := List.replicate num_anchors 0
  if anns = [] then
    ⟨loc_t0, cls_t0, neg_thresh.map (fun _ => List.replicate num_anchors false)⟩
  else
    let bboxes := anns.map (fun ann => ltwh_to_xywh ann.bbox)
    let labels := anns.map get_label
    let ious := iou_mn (bboxes.map xywh_to_ltrb) a_ltrb
    let rows := (ious.zip bboxes).zip labels
    let st1 := rows.foldl (posThreshStep pos_thresh a_xywh) (loc_t0, cls_t0)
    let st2 := rows.foldl (maxIouStep a_xywh) st1
    ⟨st2.1, st2.2, neg_thresh.map (fun nθ => ignoreMask nθ ious st2.2 num_anchors)⟩

/-- `match_anchors2` (`src/horch/detection/two/e2e.py`, lines 44-79), the
vectorized implementation.
`cls_t, indices = (pos.long() * labels[:, None]).max(dim=0)` keeps, per
anchor, the maximal thresholded label over the annotations (`0` when no
annotation passes the threshold) together with its first-maximal row
index; `loc_t = select(loc_t_all, 0, indices)` (`select` of `horch.common`
is modelled from the spec as a gather along dimension 0) takes the encoded
box of that argmax annotation; the max-IoU overwrite and the ignore mask
are the same as in `match_anchors`.  The per-anchor column of the
thresholded label matrix is read off the same packaged `rows`. -/
noncomputable def match_anchors2 (anns : List AnnRec) (a_xywh a_ltrb : List BoxQ)
    (pos_thresh : ℚ) (neg_thresh : Option ℚ) (get_label : AnnRec → ℤ) : MatchTarget :=
  let num_anchors := a_xywh.length
  if anns = [] then
    ⟨List.replicate num_anchors zeroBoxR, List.replicate num_anchors 0,
     neg_thresh.map (fun _ => List.replicate num_anchors false)⟩
  else
    let bboxes := anns.map (fun ann => ltwh_to_xywh ann.bbox)
    let labels := anns.map get_label
    let ious := iou_mn (bboxes.map xywh_to_ltrb) a_ltrb
    let rows := (ious.zip bboxes).zip labels
    let colVals := fun j => rows.map
      (fun rbl => if pos_thresh < rbl.1.1.getD j 0 then rbl.2 else 0)
    let cls_base := (List.range num_anchors).map (fun j => listMax 0 (colVals j))
    let loc_base := (List.range num_anchors).map (fun j =>
      coords_to_target
        (boxR ((bboxes.getD (argmaxFirst 0 (colVals j)) zeroBoxQ)))
        (boxR (a_xywh.getD j zeroBoxQ)))
    let st2 := rows.foldl (maxIouStep a_xywh) (loc_base, cls_base)
    ⟨st2.1, st2.2, neg_thresh.map (fun nθ => ignoreMask nθ ious st2.2 num_anchors)⟩

set_option maxHeartbeats 2000000 in
/-- C2 counterexample: two annotations with the same box but labels 3 then
2, and two anchors both above the threshold for both annotations.  The CPU
loop leaves `cls_t[1] = 2` (the last annotation's masked write wins) while
the vectorized version leaves `cls_t[1] = 3` (the labelwise maximum), so
the two implementations do not return the same `cls_t`. -/
theorem match_anchors_ne_match_anchors2 :
    (match_anchors [⟨⟨0, 0, 4, 4⟩, 3⟩, ⟨⟨0, 0, 4, 4⟩, 2⟩]
        [⟨2, 2, 4, 4⟩, ⟨2, 2, 4, 3⟩]
        ([⟨2, 2, 4, 4⟩, ⟨2, 2, 4, 3⟩].map xywh_to_ltrb)
        (1/2) none (fun a => a.category_id)).cls_t = [2, 2] ∧
    (match_anchors2 [⟨⟨0, 0, 4, 4⟩, 3⟩, ⟨⟨0, 0, 4, 4⟩, 2⟩]
        [⟨2, 2, 4, 4⟩, ⟨2, 2, 4, 3⟩]
        ([⟨2, 2, 4, 4⟩, ⟨2, 2, 4, 3⟩].map xywh_to_ltrb)
        (1/2) none (fun a => a.category_id)).cls_t = [2, 3] ∧
    (match_anchors [⟨⟨0, 0, 4, 4⟩, 3⟩, ⟨⟨0, 0, 4, 4⟩, 2⟩]
        [⟨2, 2, 4, 4⟩, ⟨2, 2, 4, 3⟩]
        ([⟨2, 2, 4, 4⟩, ⟨2, 2, 4, 3⟩].map xywh_to_ltrb)
        (1/2) none (fun a => a.category_id)).cls_t
      ≠ (match_anchors2 [⟨⟨0, 0, 4, 4⟩, 3⟩, ⟨⟨0, 0, 4, 4⟩, 2⟩]
        [⟨2, 2, 4, 4⟩, ⟨2, 2, 4, 3⟩]
        ([⟨2, 2, 4, 4⟩, ⟨2, 2, 4, 3⟩].map xywh_to_ltrb)
        (1/2) none (fun a => a.category_id)).cls_t := by
  have h1 : (match_anchors [⟨⟨0, 0, 4, 4⟩, 3⟩, ⟨⟨0, 0, 4, 4⟩, 2⟩]
      [⟨2, 2, 4, 4⟩, ⟨2, 2, 4, 3⟩]
      ([⟨2, 2, 4, 4⟩, ⟨2, 2, 4, 3⟩].map xywh_to_ltrb)
      (1/2) none (fun a => a.category_id)).cls_t = [2, 2] := by
    norm_num [match_anchors, iou_mn, iou_ltrb, xywh_to_ltrb, ltwh_to_xywh, posThreshStep,
      maxIouStep, argmaxFirst, listMax, zeroBoxQ, zeroBoxR, List.cons_ne_nil,
      List.replicate, List.zipWith, List.set]
  have h2 : (match_anchors2 [⟨⟨0, 0, 4, 4⟩, 3⟩, ⟨⟨0, 0, 4, 4⟩, 2⟩]
      [⟨2, 2, 4, 4⟩, ⟨2, 2, 4, 3⟩]
      ([⟨2, 2, 4, 4⟩, ⟨2, 2, 4, 3⟩].map xywh_to_ltrb)
      (1/2) none (fun a => a.category_id)).cls_t = [2, 3] := by
    norm_num [match_anchors2, iou_mn, iou_ltrb, xywh_to_ltrb, ltwh_to_xywh,
      maxIouStep, argmaxFirst, listMax, zeroBoxQ, zeroBoxR, List.cons_ne_nil,
      List.replicate, List.zipWith, List.set, List.range_succ]
  exact ⟨h1, h2, by rw [h1, h2]; decide⟩

theorem foldl_maxIouStep_snd (a_xywh : List BoxQ) :
    ∀ (rows : List ((List ℚ × BoxQ) × ℤ)) (st : List BoxR × List ℤ),
      (rows.foldl (maxIouStep a_xywh) st).2
        = rows.foldl (fun c rbl => c.set (argmaxFirst 0 rbl.1.1) rbl.2) st.2
  | [], _ => rfl
  | r :: rows, st => foldl_maxIouStep_snd a_xywh rows (maxIouStep a_xywh st r)

theorem foldl_posThreshStep_snd (pt : ℚ) (a_xywh : List BoxQ) :
    ∀ (rows : List ((List ℚ × BoxQ) × ℤ)) (st : List BoxR × List ℤ),
      (rows.foldl (posThreshStep pt a_xywh) st).2
        = rows.foldl (fun c rbl =>
            List.zipWith (fun c v => if pt < v then rbl.2 else c) c rbl.1.1) st.2
  | [], _ => rfl
  | r :: rows, st => foldl_posThreshStep_snd pt a_xywh rows (posThreshStep pt a_xywh st r)

theorem cls_fold_length (pt : ℚ) :
    ∀ (rows : List ((List ℚ × BoxQ) × ℤ)) (acc : List ℤ),
      (∀ rl ∈ rows, acc.length ≤ rl.1.1.length) →
      (rows.foldl (fun c rbl =>
          List.zipWith (fun c v => if pt < v then rbl.2 else c) c rbl.1.1) acc).length
        = acc.length
  | [], _, _ => rfl
  | r :: rows, acc, h => by
    have hr := h r (List.mem_cons_self r rows)
    have hlen : (List.zipWith (fun c v => if pt < v then r.2 else c) acc r.1.1).length
        = acc.length := by
      rw [List.length_zipWith]; omega
    have ih := cls_fold_length pt rows
      (List.zipWith (fun c v => if pt < v then r.2 else c) acc r.1.1)
      (by
        intro rl hrl
        rw [hlen]
        exact h rl (List.mem_cons_of_mem r hrl))
    rw [List.foldl_cons, ih, hlen]

theorem cls_fold_getD (pt : ℚ) :
    ∀ (rows : List ((List ℚ × BoxQ) × ℤ)) (acc : List ℤ) (j : ℕ),
      (∀ rl ∈ rows, rl.2 = 1 ∧ acc.length ≤ rl.1.1.length) → j < acc.length →
      (rows.foldl (fun c rbl =>
          List.zipWith (fun c v => if pt < v then rbl.2 else c) c rbl.1.1) acc).getD j 0
        = if ∃ rl ∈ rows, pt < rl.1.1.getD j 0 then 1 else acc.getD j 0
  | [], acc, j, _, _ => by simp
  | r :: rows, acc, j, h, hj => by
    have hr := h r (List.mem_cons_self r rows)
    have hlen' : (List.zipWith (fun c v => if pt < v then r.2 else c) acc r.1.1).length
        = acc.length := by
      rw [List.length_zipWith]; omega
    have hstep : (List.zipWith (fun c v => if pt < v then r.2 else c) acc r.1.1).getD j 0
        = if pt < r.1.1.getD j 0 then 1 else acc.getD j 0 := by
      have hj2 : j < (List.zipWith (fun c v => if pt < v then r.2 else c) acc r.1.1).length := by
        omega
      rw [List.getD_eq_getElem _ _ hj2, List.getElem_zipWith,
        ← List.getD_eq_getElem acc 0 hj, ← List.getD_eq_getElem r.1.1 0 (by omega), hr.1]
    have ih := cls_fold_getD pt rows
      (List.zipWith (fun c v => if pt < v then r.2 else c) acc r.1.1) j
      (fun rl hrl => ⟨(h rl (List.mem_cons_of_mem r hrl)).1, by
        rw [hlen']
        exact (h rl (List.mem_cons_of_mem r hrl)).2⟩)
      (by omega)
    rw [List.foldl_cons, ih, hstep]
    by_cases hex : ∃ rl ∈ rows, pt < rl.1.1.getD j 0
    · have hex' : ∃ rl ∈ r :: rows, pt < rl.1.1.getD j 0 := by
        obtain ⟨rl, hrl, hp⟩ := hex
        exact ⟨rl, List.mem_cons_of_mem r hrl, hp⟩
      rw [if_pos hex, if_pos hex']
    · by_cases hr1 : pt < r.1.1.getD j 0
      · have hex' : ∃ rl ∈ r :: rows, pt < rl.1.1.getD j 0 :=
          ⟨r, List.mem_cons_self r rows, hr1⟩
        rw [if_neg hex, if_pos hr1, if_pos hex']
      · have hex' : ¬∃ rl ∈ r :: rows, pt < rl.1.1.getD j 0 := by
          rintro ⟨rl, hrl, hp⟩
          rcases List.mem_cons.mp hrl with rfl | hmem
          · exact hr1 hp
          · exact hex ⟨rl, hmem, hp⟩
        rw [if_neg hex, if_neg hr1, if_neg hex']

theorem listMax_thresholded_labels (pt : ℚ) (j : ℕ) :
    ∀ (rows : List ((List ℚ × BoxQ) × ℤ)), rows ≠ [] → (∀ rl ∈ rows, rl.2 = 1) →
      listMax 0 (rows.map (fun rbl => if pt < rbl.1.1.getD j 0 then rbl.2 else 0))
        = if ∃ rl ∈ rows, pt < rl.1.1.getD j 0 then 1 else 0
  | [], h, _ => absurd rfl h
  | [r], _, hlab => by
    have h1 := hlab r (by simp)
    simp only [List.map_cons, List.map_nil, listMax, h1]
    by_cases hr : pt < r.1.1.getD j 0
    · rw [if_pos hr, if_pos ⟨r, by simp, hr⟩]
    · rw [if_neg hr, if_neg (by
        rintro ⟨rl, hrl, hp⟩
        simp only [List.mem_singleton] at hrl
        subst hrl
        exact hr hp)]
  | r :: r2 :: rows, _, hlab => by
    have h1 := hlab r (by simp)
    have ih := listMax_thresholded_labels pt j (r2 :: rows) (by simp)
      (fun rl hrl => hlab rl (List.mem_cons_of_mem r hrl))
    simp only [List.map_cons] at ih ⊢
    rw [listMax_cons_of_ne_nil 0 _ _ (by simp), ih, h1]
    by_cases hr : pt < r.1.1.getD j 0
    · have hex' : ∃ rl ∈ r :: r2 :: rows, pt < rl.1.1.getD j 0 := ⟨r, by simp, hr⟩
      rw [if_pos hr, if_pos hex']
      by_cases hex : ∃ rl ∈ r2 :: rows, pt < rl.1.1.getD j 0
      · rw [if_pos hex]; decide
      · rw [if_neg hex]; decide
    · rw [if_neg hr]
      by_cases hex : ∃ rl ∈ r2 :: rows, pt < rl.1.1.getD j 0
      · have hex' : ∃ rl ∈ r :: r2 :: rows, pt < rl.1.1.getD j 0 := by
          obtain ⟨rl, hrl, hp⟩ := hex
          exact ⟨rl, List.mem_cons_of_mem r hrl, hp⟩
        rw [if_pos hex, if_pos hex']; decide
      · have hex' : ¬∃ rl ∈ r :: r2 :: rows, pt < rl.1.1.getD j 0 := by
          rintro ⟨rl, hrl, hp⟩
          rcases List.mem_cons.mp hrl with rfl | hmem
          · exact hr hp
          · exact hex ⟨rl, hmem, hp⟩
        rw [if_neg hex, if_neg hex']; decide

theorem cls_bases_agree (pt : ℚ) (n : ℕ)
    (rows : List ((List ℚ × BoxQ) × ℤ)) (hne : rows ≠ [])
    (hlab : ∀ rl ∈ rows, rl.2 = 1) (hlen : ∀ rl ∈ rows, n ≤ rl.1.1.length) :
    rows.foldl (fun c rbl =>
        List.zipWith (fun c v => if pt < v then rbl.2 else c) c rbl.1.1)
      (List.replicate n 0)
      = (List.range n).map (fun j =>
          listMax 0 (rows.map (fun rbl => if pt < rbl.1.1.getD j 0 then rbl.2 else 0))) := by
  apply List.ext_getElem
  · rw [cls_fold_length pt rows _ (by
      intro rl hrl
      rw [List.length_replicate]
      exact hlen rl hrl)]
    simp
  · intro j h1 h2
    have hjn : j < n := by simpa using h2
    rw [← List.getD_eq_getElem _ (0 : ℤ) h1, ← List.getD_eq_getElem _ (0 : ℤ) h2]
    rw [cls_fold_getD pt rows _ j
      (fun rl hrl => ⟨hlab rl hrl, by
        rw [List.length_replicate]
        exact hlen rl hrl⟩)
      (by rw [List.length_replicate]; exact hjn)]
    have hmap : ((List.range n).map (fun j =>
        listMax 0 (rows.map (fun rbl => if pt < rbl.1.1.getD j 0 then rbl.2 else 0)))).getD j 0
        = listMax 0 (rows.map (fun rbl => if pt < rbl.1.1.getD j 0 then rbl.2 else 0)) := by
      rw [List.getD_eq_getElem _ _ h2, List.getElem_map, List.getElem_range]
    rw [hmap, listMax_thresholded_labels pt j rows hne hlab]
    have hrep : (List.replicate n (0 : ℤ)).getD j 0 = 0 := by
      rw [List.getD_eq_getElem _ _ (by simpa using hjn), List.getElem_replicate]
    rw [hrep]

/-- C2 amended: when every annotation carries the same label `1` — as in
`MatchAnchors.__call__`, which always passes `get_label = lambda x: 1` and
dispatches between the two implementations solely on the anchors' device —
and the two anchor lists are two formats of the same anchors (equal
lengths), `match_anchors` and `match_anchors2` return the same `cls_t`
and the same ignore mask.  (The returned `loc_t` may still differ when an
anchor exceeds `pos_thresh` for more than one annotation, and the `cls_t`
differ for distinct labels, as the counterexample shows.) -/
theorem match_anchors_cls_ignore_agree (anns : List AnnRec) (a_xywh a_ltrb : List BoxQ)
    (pt : ℚ) (nt : Option ℚ) (get_label : AnnRec → ℤ)
    (hlab : ∀ a ∈ anns, get_label a = 1)
    (hlen : a_ltrb.length = a_xywh.length) :
    (match_anchors anns a_xywh a_ltrb pt nt get_label).cls_t
      = (match_anchors2 anns a_xywh a_ltrb pt nt get_label).cls_t ∧
    (match_anchors anns a_xywh a_ltrb pt nt get_label).ig
      = (match_anchors2 anns a_xywh a_ltrb pt nt get_label).ig := by
  by_cases hann : anns = []
  · subst hann
    exact ⟨rfl, rfl⟩
  · set bboxes := anns.map (fun ann => ltwh_to_xywh ann.bbox) with hbboxes
    set ious := iou_mn (bboxes.map xywh_to_ltrb) a_ltrb with hious
    set rows := (ious.zip bboxes).zip (anns.map get_label) with hrows
    have hiouslen : ious.length = anns.length := by
      rw [hious]
      unfold iou_mn
      simp [hbboxes]
    have hrowlab : ∀ rl ∈ rows, rl.2 = 1 := by
      rintro ⟨rl1, rl2⟩ hrl
      have h2 : rl2 ∈ anns.map get_label := (List.of_mem_zip hrl).2
      rcases List.mem_map.mp h2 with ⟨a, ha, rfl⟩
      exact hlab a ha
    have hrowlen : ∀ rl ∈ rows, a_xywh.length ≤ rl.1.1.length := by
      rintro ⟨⟨row, bb⟩, lab⟩ hrl
      have h1 : (row, bb) ∈ ious.zip bboxes := (List.of_mem_zip hrl).1
      have h2 : row ∈ ious := (List.of_mem_zip h1).1
      rw [hious] at h2
      unfold iou_mn at h2
      rcases List.mem_map.mp h2 with ⟨b, _, rfl⟩
      simp [hlen]
    have hrowne : rows ≠ [] := by
      have hll : rows.length = anns.length := by
        rw [hrows]
        rw [List.length_zip, List.length_zip, hiouslen]
        simp [hbboxes]
      intro hcon
      rw [hcon] at hll
      exact hann (List.length_eq_zero.mp (by simpa using hll.symm))
    have hbase := cls_bases_agree pt a_xywh.length rows hrowne hrowlab hrowlen
    have hcls : (match_anchors anns a_xywh a_ltrb pt nt get_label).cls_t
        = (match_anchors2 anns a_xywh a_ltrb pt nt get_label).cls_t := by
      simp only [match_anchors, match_anchors2, if_neg hann]
      rw [← hbboxes, ← hious, ← hrows]
      rw [foldl_maxIouStep_snd, foldl_maxIouStep_snd, foldl_posThreshStep_snd]
      exact congrArg (fun c => List.foldl
        (fun c rbl => c.set (argmaxFirst 0 rbl.1.1) rbl.2) c rows) hbase
    refine ⟨hcls, ?_⟩
    simp only [match_anchors, match_anchors2, if_neg hann] at hcls ⊢
    rw [hcls]

/-- Witness for the amended C2 at one annotation, one anchor,
`get_label = fun _ => 1`, `pos_thresh = 1/2`, `neg_thresh = 1/4`. -/
theorem match_anchors_cls_ignore_agree_witness :
    (∀ a ∈ ([⟨⟨0, 0, 4, 4⟩, 7⟩] : List AnnRec), (fun _ => (1 : ℤ)) a = 1) ∧
    ([⟨0, 0, 4, 4⟩] : List BoxQ).length = ([⟨2, 2, 4, 4⟩] : List BoxQ).length ∧
    ((match_anchors [⟨⟨0, 0, 4, 4⟩, 7⟩] [⟨2, 2, 4, 4⟩] [⟨0, 0, 4, 4⟩]
        (1/2) (some (1/4)) (fun _ => 1)).cls_t
      = (match_anchors2 [⟨⟨0, 0, 4, 4⟩, 7⟩] [⟨2, 2, 4, 4⟩] [⟨0, 0, 4, 4⟩]
        (1/2) (some (1/4)) (fun _ => 1)).cls_t ∧
     (match_anchors [⟨⟨0, 0, 4, 4⟩, 7⟩] [⟨2, 2, 4, 4⟩] [⟨0, 0, 4, 4⟩]
        (1/2) (some (1/4)) (fun _ => 1)).ig
      = (match_anchors2 [⟨⟨0, 0, 4, 4⟩, 7⟩] [⟨2, 2, 4, 4⟩] [⟨0, 0, 4, 4⟩]
        (1/2) (some (1/4)) (fun _ => 1)).ig) :=
  ⟨fun _ _ => rfl, rfl,
    match_anchors_cls_ignore_agree [⟨⟨0, 0, 4, 4⟩, 7⟩] [⟨2, 2, 4, 4⟩] [⟨0, 0, 4, 4⟩]
      (1/2) (some (1/4)) (fun _ => 1) (fun _ _ => rfl) rfl⟩

/-! ### `MultiLevelAnchorMatching.__call__` (`src/hutil/detection/__init__.py`, lines 163-223) -/

/-- The level selected by phase 2 of the per-annotation loop: Python's
`max(enumerate(max_ious), key=lambda x: x[1][0])` returns the first level
of maximal IoU. -/
def bestLevel (bbox : BoxQ) (flat_anchors : List (List BoxQ)) : ℕ :=
  argmaxFirst 0 (flat_anchors.map (fun anchors => listMax 0 (iou_1m bbox anchors)))

/-- The anchor index selected by phase 2 within the selected level:
`ious.max(dim=0)` returns the first index of maximal IoU. -/
def bestAnchor (bbox : BoxQ) (flat_anchors : List (List BoxQ)) : ℕ :=
  argmaxFirst 0 (iou_1m bbox (flat_anchors.getD (bestLevel bbox flat_anchors) []))

/-- The per-annotation body of `MultiLevelAnchorMatching.__call__`
(lines 182-210) acting on the per-level targets.  `bbox` is the
annotation's box already converted to XYWH (line 184).  Phase 1: for each
level, when `pos_thresh` is truthy, the encoded box and the label are
written at every anchor whose IoU exceeds `pos_thresh`, and when
`neg_thresh` is truthy the negative mask is intersected with
`ious < neg_thresh`.  Phase 2: `ious.max(dim=0)` yields each level's
maximal IoU and first-maximal index, Python `max` picks the first level of
maximal IoU, and the label and encoded box are written there
unconditionally. -/
noncomputable def matchAnnStep (pos_thresh neg_thresh : Option ℚ)
    (flat_anchors : List (List BoxQ)) (bbox : BoxQ) (label : ℤ)
    (locTs : List (List BoxR)) (clsTs : List (List ℤ)) (negs : List (List Bool)) :
    List (List BoxR) × List (List ℤ) × List (List Bool) :=
  let st1 := match pos_thresh with
    | none => (locTs, clsTs)
    | some pt =>
      (List.zipWith (fun (lt : List BoxR) (anchors : List BoxQ) =>
          List.zipWith (fun (p : BoxR × BoxQ) (v : ℚ) =>
              if pt < v then coords_to_target (boxR bbox) (boxR p.2) else p.1)
            (lt.zip anchors) (iou_1m bbox anchors)) locTs flat_anchors,
       List.zipWith (fun (ct : List ℤ) (anchors : List BoxQ) =>
          List.zipWith (fun c (v : ℚ) => if pt < v then label else c)
            ct (iou_1m bbox anchors)) clsTs flat_anchors)
  let negs1 := match neg_thresh with
    | none => negs
    | some nθ =>
      List.zipWith (fun (ng : List Bool) (anchors : List BoxQ) =>
          List.zipWith (fun b (v : ℚ) => b && decide (v < nθ))
            ng (iou_1m bbox anchors)) negs flat_anchors
  let f := bestLevel bbox flat_anchors
  let i := bestAnchor bbox flat_anchors
  (st1.1.set f ((st1.1.getD f []).set i
      (coords_to_target (boxR bbox) (boxR ((flat_anchors.getD f []).getD i zeroBoxQ)))),
   st1.2.set f ((st1.2.getD f []).set i label),
   negs1)

theorem getD_set_set {α : Type*} (X : List (List α)) (f i : ℕ) (a d : α)
    (h1 : f < X.length) (h2 : i < (X.getD f []).length) :
    ((X.set f ((X.getD f []).set i a)).getD f []).getD i d = a := by
  have hfs : f < (X.set f ((X.getD f []).set i a)).length := by
    rw [List.length_set]; exact h1
  rw [List.getD_eq_getElem _ _ hfs, List.getElem_set_eq hfs]
  have his : i < ((X.getD f []).set i a).length := by
    rw [List.length_set]; exact h2
  rw [List.getD_eq_getElem _ _ his, List.getElem_set_eq his]

/-- C3: in `MultiLevelAnchorMatching.__call__`, each processed annotation
assigns the single anchor whose IoU with its box is maximal across all
levels: that anchor's `cls_target` becomes the annotation's label and its
`loc_target` the encoded coordinates, for every `pos_thresh` (in
particular also when the maximal IoU is at or below it); the selected
position maximizes the IoU, and any equal-IoU position lies at a later
level or at the same level with a greater-or-equal anchor index. -/
theorem multiLevel_max_iou_assignment (pos_thresh neg_thresh : Option ℚ)
    (flat_anchors : List (List BoxQ)) (bbox : BoxQ) (label : ℤ)
    (locTs : List (List BoxR)) (clsTs : List (List ℤ)) (negs : List (List Bool))
    (hne : flat_anchors ≠ [])
    (hnonempty : ∀ anchors ∈ flat_anchors, anchors ≠ [])
    (hloc1 : locTs.length = flat_anchors.length)
    (hcls1 : clsTs.length = flat_anchors.length)
    (hloc2 : (locTs.getD (bestLevel bbox flat_anchors) []).length
      = (flat_anchors.getD (bestLevel bbox flat_anchors) []).length)
    (hcls2 : (clsTs.getD (bestLevel bbox flat_anchors) []).length
      = (flat_anchors.getD (bestLevel bbox flat_anchors) []).length) :
    (((matchAnnStep pos_thresh neg_thresh flat_anchors bbox label locTs clsTs negs).2.1.getD
          (bestLevel bbox flat_anchors) []).getD (bestAnchor bbox flat_anchors) 0
        = label) ∧
    (((matchAnnStep pos_thresh neg_thresh flat_anchors bbox label locTs clsTs negs).1.getD
          (bestLevel bbox flat_anchors) []).getD (bestAnchor bbox flat_anchors) zeroBoxR
        = coords_to_target (boxR bbox)
            (boxR ((flat_anchors.getD (bestLevel bbox flat_anchors) []).getD
              (bestAnchor bbox flat_anchors) zeroBoxQ))) ∧
    (∀ g j, g < flat_anchors.length → j < (flat_anchors.getD g []).length →
      (iou_1m bbox (flat_anchors.getD g [])).getD j 0
        ≤ (iou_1m bbox (flat_anchors.getD (bestLevel bbox flat_anchors) [])).getD
            (bestAnchor bbox flat_anchors) 0) ∧
    (∀ g j, g < flat_anchors.length → j < (flat_anchors.getD g []).length →
      (iou_1m bbox (flat_anchors.getD g [])).getD j 0
          = (iou_1m bbox (flat_anchors.getD (bestLevel bbox flat_anchors) [])).getD
              (bestAnchor bbox flat_anchors) 0 →
      bestLevel bbox flat_anchors < g
        ∨ (bestLevel bbox flat_anchors = g ∧ bestAnchor bbox flat_anchors ≤ j)) := by
  set LM := flat_anchors.map (fun anchors => listMax 0 (iou_1m bbox anchors)) with hLM
  have hF : bestLevel bbox flat_anchors = argmaxFirst 0 LM := rfl
  have hlenLM : LM.length = flat_anchors.length := by rw [hLM]; exact List.length_map _ _
  have hLMne : LM ≠ [] := by
    rw [hLM]
    intro hcon
    exact hne (List.map_eq_nil.mp hcon)
  have hf : bestLevel bbox flat_anchors < flat_anchors.length := by
    rw [hF, ← hlenLM]
    exact argmaxFirst_lt_length 0 _ hLMne
  have hrowne : ∀ g, g < flat_anchors.length → iou_1m bbox (flat_anchors.getD g []) ≠ [] := by
    intro g hg hcon
    have hmem : flat_anchors.getD g [] ∈ flat_anchors := by
      rw [List.getD_eq_getElem _ _ hg]
      exact List.getElem_mem _
    unfold iou_1m at hcon
    exact hnonempty _ hmem (List.map_eq_nil.mp hcon)
  have hrowlen : ∀ g, (iou_1m bbox (flat_anchors.getD g [])).length
      = (flat_anchors.getD g []).length := by
    intro g
    unfold iou_1m
    exact List.length_map _ _
  have hI : bestAnchor bbox flat_anchors
      = argmaxFirst 0 (iou_1m bbox (flat_anchors.getD (bestLevel bbox flat_anchors) [])) := rfl
  have hi : bestAnchor bbox flat_anchors
      < (flat_anchors.getD (bestLevel bbox flat_anchors) []).length := by
    rw [hI, ← hrowlen]
    exact argmaxFirst_lt_length 0 _ (hrowne _ hf)
  have hLMgetD : ∀ g, g < flat_anchors.length →
      LM.getD g 0 = listMax 0 (iou_1m bbox (flat_anchors.getD g [])) := by
    intro g hg
    rw [hLM, List.getD_eq_getElem _ _ (by rw [List.length_map]; exact hg), List.getElem_map]
    congr 2
    rw [List.getD_eq_getElem _ _ hg]
  have hival : (iou_1m bbox (flat_anchors.getD (bestLevel bbox flat_anchors) [])).getD
      (bestAnchor bbox flat_anchors) 0
      = listMax 0 (iou_1m bbox (flat_anchors.getD (bestLevel bbox flat_anchors) [])) := by
    rw [hI]
    exact getD_argmaxFirst_eq_listMax 0 _ (hrowne _ hf)
  have hfval : LM.getD (bestLevel bbox flat_anchors) 0
      = listMax 0 LM := by
    rw [hF]
    exact getD_argmaxFirst_eq_listMax 0 _ hLMne
  have hfval2 : listMax 0 (iou_1m bbox (flat_anchors.getD (bestLevel bbox flat_anchors) []))
      = listMax 0 LM := by
    rw [← hLMgetD _ hf]
    exact hfval
  have hmaximal : ∀ g j, g < flat_anchors.length → j < (flat_anchors.getD g []).length →
      (iou_1m bbox (flat_anchors.getD g [])).getD j 0
        ≤ (iou_1m bbox (flat_anchors.getD (bestLevel bbox flat_anchors) [])).getD
            (bestAnchor bbox flat_anchors) 0 := by
    intro g j hg hj
    have s1 : (iou_1m bbox (flat_anchors.getD g [])).getD j 0
        ≤ listMax 0 (iou_1m bbox (flat_anchors.getD g [])) :=
      getD_le_listMax 0 _ j (by rw [hrowlen]; exact hj)
    have s2 : listMax 0 (iou_1m bbox (flat_anchors.getD g [])) ≤ listMax 0 LM := by
      rw [← hLMgetD g hg]
      exact getD_le_listMax 0 _ g (by rw [hlenLM]; exact hg)
    calc (iou_1m bbox (flat_anchors.getD g [])).getD j 0
        ≤ listMax 0 (iou_1m bbox (flat_anchors.getD g [])) := s1
      _ ≤ listMax 0 LM := s2
      _ = (iou_1m bbox (flat_anchors.getD (bestLevel bbox flat_anchors) [])).getD
            (bestAnchor bbox flat_anchors) 0 := by rw [hival, hfval2]
  refine ⟨?_, ?_, hmaximal, ?_⟩
  · -- cls target: unfold the step; the phase-1 branch does not matter for
    -- the lengths used, handled by cases on pos_thresh.
    cases pos_thresh with
    | none =>
      exact getD_set_set clsTs _ _ label 0 (by rw [hcls1]; exact hf) (by rw [hcls2]; exact hi)
    | some pt =>
      refine getD_set_set _ _ _ label 0 ?_ ?_
      · rw [List.length_zipWith, hcls1]
        simp [hf]
      · have hflt : bestLevel bbox flat_anchors
            < (List.zipWith (fun (ct : List ℤ) (anchors : List BoxQ) =>
                List.zipWith (fun c (v : ℚ) => if pt < v then label else c)
                  ct (iou_1m bbox anchors)) clsTs flat_anchors).length := by
          rw [List.length_zipWith, hcls1]
          simp [hf]
        rw [List.getD_eq_getElem _ _ hflt, List.getElem_zipWith, List.length_zipWith]
        rw [← List.getD_eq_getElem clsTs [] (by rw [hcls1]; exact hf),
          ← List.getD_eq_getElem flat_anchors [] hf]
        rw [hcls2, hrowlen]
        simpa using hi
  · cases pos_thresh with
    | none =>
      exact getD_set_set locTs _ _ _ zeroBoxR (by rw [hloc1]; exact hf) (by rw [hloc2]; exact hi)
    | some pt =>
      refine getD_set_set _ _ _ _ zeroBoxR ?_ ?_
      · rw [List.length_zipWith, hloc1]
        simp [hf]
      · have hflt : bestLevel bbox flat_anchors
            < (List.zipWith (fun (lt : List BoxR) (anchors : List BoxQ) =>
                List.zipWith (fun (p : BoxR × BoxQ) (v : ℚ) =>
                    if pt < v then coords_to_target (boxR bbox) (boxR p.2) else p.1)
                  (lt.zip anchors) (iou_1m bbox anchors)) locTs flat_anchors).length := by
          rw [List.length_zipWith, hloc1]
          simp [hf]
        rw [List.getD_eq_getElem _ _ hflt, List.getElem_zipWith, List.length_zipWith,
          List.length_zip]
        rw [← List.getD_eq_getElem locTs [] (by rw [hloc1]; exact hf),
          ← List.getD_eq_getElem flat_anchors [] hf]
        rw [hloc2, hrowlen]
        simpa using hi
  · intro g j hg hj heq
    rcases Nat.lt_trichotomy (bestLevel bbox flat_anchors) g with hlt | hE | hgt
    · exact Or.inl hlt
    · refine Or.inr ⟨hE, ?_⟩
      by_contra hcon
      push_neg at hcon
      have hjlt : j < argmaxFirst 0 (iou_1m bbox (flat_anchors.getD
          (bestLevel bbox flat_anchors) [])) := by
        rw [← hI]; exact hcon
      have hstrict := getD_lt_of_lt_argmaxFirst 0
        (iou_1m bbox (flat_anchors.getD (bestLevel bbox flat_anchors) [])) j hjlt
      rw [← hI] at hstrict
      rw [← hE] at heq
      exact absurd heq (ne_of_lt hstrict)
    · exfalso
      have hstrictLM := getD_lt_of_lt_argmaxFirst 0 LM g (by rw [← hF]; exact hgt)
      rw [← hF, hfval, hLMgetD g hg] at hstrictLM
      have hle : (iou_1m bbox (flat_anchors.getD g [])).getD j 0
          ≤ listMax 0 (iou_1m bbox (flat_anchors.getD g [])) :=
        getD_le_listMax 0 _ j (by rw [hrowlen]; exact hj)
      rw [heq, hival, hfval2] at hle
      exact absurd (lt_of_le_of_lt hle hstrictLM) (lt_irrefl _)

/-- Witness for C3: two levels with one anchor each, `pos_thresh = 10`
so that the maximal IoU is far below the positive threshold. -/
theorem multiLevel_max_iou_assignment_witness :
    ([[BoxQ.mk 2 2 4 4], [BoxQ.mk 2 2 4 2]] : List (List BoxQ)) ≠ [] ∧
    (∀ anchors ∈ ([[BoxQ.mk 2 2 4 4], [BoxQ.mk 2 2 4 2]] : List (List BoxQ)), anchors ≠ []) ∧
    ((([[zeroBoxR], [zeroBoxR]] : List (List BoxR)).length
        = ([[BoxQ.mk 2 2 4 4], [BoxQ.mk 2 2 4 2]] : List (List BoxQ)).length) ∧
     (([[0], [0]] : List (List ℤ)).length
        = ([[BoxQ.mk 2 2 4 4], [BoxQ.mk 2 2 4 2]] : List (List BoxQ)).length)) ∧
    ((((matchAnnStep (some 10) none [[BoxQ.mk 2 2 4 4], [BoxQ.mk 2 2 4 2]]
          (BoxQ.mk 2 2 4 4) 5 [[zeroBoxR], [zeroBoxR]] [[0], [0]] []).2.1.getD
          (bestLevel (BoxQ.mk 2 2 4 4) [[BoxQ.mk 2 2 4 4], [BoxQ.mk 2 2 4 2]]) []).getD
          (bestAnchor (BoxQ.mk 2 2 4 4) [[BoxQ.mk 2 2 4 4], [BoxQ.mk 2 2 4 2]]) 0
        = 5) ∧
     (((matchAnnStep (some 10) none [[BoxQ.mk 2 2 4 4], [BoxQ.mk 2 2 4 2]]
          (BoxQ.mk 2 2 4 4) 5 [[zeroBoxR], [zeroBoxR]] [[0], [0]] []).1.getD
          (bestLevel (BoxQ.mk 2 2 4 4) [[BoxQ.mk 2 2 4 4], [BoxQ.mk 2 2 4 2]]) []).getD
          (bestAnchor (BoxQ.mk 2 2 4 4) [[BoxQ.mk 2 2 4 4], [BoxQ.mk 2 2 4 2]]) zeroBoxR
        = coords_to_target (boxR (BoxQ.mk 2 2 4 4))
            (boxR ((([[BoxQ.mk 2 2 4 4], [BoxQ.mk 2 2 4 2]] : List (List BoxQ)).getD
              (bestLevel (BoxQ.mk 2 2 4 4) [[BoxQ.mk 2 2 4 4], [BoxQ.mk 2 2 4 2]]) []).getD
              (bestAnchor (BoxQ.mk 2 2 4 4) [[BoxQ.mk 2 2 4 4], [BoxQ.mk 2 2 4 2]]) zeroBoxQ))))
    := by
  have h := multiLevel_max_iou_assignment (some 10) none
    [[BoxQ.mk 2 2 4 4], [BoxQ.mk 2 2 4 2]] (BoxQ.mk 2 2 4 4) 5
    [[zeroBoxR], [zeroBoxR]] [[0], [0]] []
    (by decide) (by decide) (by decide) (by decide)
    (by
      rcases Nat.lt_or_ge (bestLevel (BoxQ.mk 2 2 4 4) [[BoxQ.mk 2 2 4 4], [BoxQ.mk 2 2 4 2]]) 2
        with hb | hb
      · interval_cases (bestLevel (BoxQ.mk 2 2 4 4) [[BoxQ.mk 2 2 4 4], [BoxQ.mk 2 2 4 2]])
        · rfl
        · rfl
      · rw [List.getD_eq_default _ _ (by simpa using hb),
          List.getD_eq_default _ _ (by simpa using hb)]
        rfl)
    (by
      rcases Nat.lt_or_ge (bestLevel (BoxQ.mk 2 2 4 4) [[BoxQ.mk 2 2 4 4], [BoxQ.mk 2 2 4 2]]) 2
        with hb | hb
      · interval_cases (bestLevel (BoxQ.mk 2 2 4 4) [[BoxQ.mk 2 2 4 4], [BoxQ.mk 2 2 4 2]])
        · rfl
        · rfl
      · rw [List.getD_eq_default _ _ (by simpa using hb),
          List.getD_eq_default _ _ (by simpa using hb)]
        rfl)
  exact ⟨by decide, by decide, ⟨by decide, by decide⟩, h.1, h.2.1⟩

end Spec2Proof
